import Mathlib

/-!
Verification of the playlist-mutation / permission subsystem and the
rating-aggregate subsystem of the music_backend repository.

The definitions below are shallow embeddings of the JavaScript source:
* `Ratings` and its operations embed the rating aggregate stored on a Song
  (`src/models/Song.js`: `addRating`, `updateRating`) and the in-route
  aggregate update of the remove-rating handler (`DELETE /ratings/:songId`).
* Playlist structures and operations embed `src/models/Playlist.js`
  (`addSong`, `removeSong`, `reorderSongs`, `toggleFollow`, `hasPermission`,
  `updateMetadata`) and the relevant route handlers.

Document ids (Mongo ObjectIds, compared via `toString()`) are modelled as
natural numbers; JS numbers holding integral counts are modelled as `ℤ`
(JS arithmetic on them is exact and can go negative); the stored `average`
is modelled as `ℚ` (exact arithmetic, as the claims request).
-/

namespace MusicBackend

/-! ## Rating aggregate (`src/models/Song.js`, `ratings` subdocument) -/

/-- The `ratings` subdocument of a Song: `average`, `count` and the
star-distribution buckets (accessed at keys 1..5 in the source). -/
structure Ratings where
  average : ℚ
  count : ℤ
  dist : ℕ → ℤ

/-- Functional update of a distribution map at one star key,
modelling a JS assignment `distribution[s] = v`. -/
def setDist (d : ℕ → ℤ) (s : ℕ) (v : ℤ) : ℕ → ℤ :=
  fun i => if i = s then v else d i

/-- Sum of the five distribution buckets (`sum(distribution.values())`). -/
def sumDist (d : ℕ → ℤ) : ℤ :=
  d 1 + d 2 + d 3 + d 4 + d 5

/-- The loop `for (let i = 1; i <= 5; i++) totalScore += i * distribution[i]`
from `updateRating` and the remove-rating handler. -/
def totalScore (d : ℕ → ℤ) : ℤ :=
  1 * d 1 + 2 * d 2 + 3 * d 3 + 4 * d 4 + 5 * d 5

/-- `songSchema.methods.addRating` (`src/models/Song.js` lines 256-269):
increments `distribution[rating]`, increments `count`, and sets
`average = ((oldAverage * oldCount) + rating) / newCount`. -/
def addRating (r : Ratings) (rating : ℕ) : Ratings :=
  let oldCount := r.count
  let oldAverage := r.average
  let d := setDist r.dist rating (r.dist rating + 1)
  let newCount := oldCount + 1
  { average := (oldAverage * (oldCount : ℚ) + (rating : ℚ)) / ((newCount : ℤ) : ℚ)
    count := newCount
    dist := d }

/-- `songSchema.methods.updateRating` (`src/models/Song.js` lines 272-286):
decrements `distribution[oldRating]`, increments `distribution[newRating]`,
and recomputes `average` from the full distribution (`count` unchanged);
`average` is set to 0 when `count` is not positive.  The source performs
no underflow check on the `oldRating` bucket. -/
def updateRating (r : Ratings) (oldRating newRating : ℕ) : Ratings :=
  let d1 := setDist r.dist oldRating (r.dist oldRating - 1)
  let d := setDist d1 newRating (d1 newRating + 1)
  { average := if 0 < r.count then ((totalScore d : ℤ) : ℚ) / ((r.count : ℤ) : ℚ) else 0
    count := r.count
    dist := d }

/-- The aggregate update performed inline by the remove-rating handler
(`DELETE /ratings/:songId`): decrements `distribution[oldRating]` and
`count`, then recomputes `average` from the distribution, or sets it to 0
when the new count is not positive. -/
def removeRatingAggregate (r : Ratings) (oldRating : ℕ) : Ratings :=
  let d := setDist r.dist oldRating (r.dist oldRating - 1)
  let newCount := r.count - 1
  { average := if 0 < newCount then ((totalScore d : ℤ) : ℚ) / ((newCount : ℤ) : ℚ) else 0
    count := newCount
    dist := d }

/-- The distribution buckets 1..5 are counts: all non-negative.
(Part of the data model: `distribution` maps star values to counts.) -/
def BucketsNonneg (r : Ratings) : Prop :=
  0 ≤ r.dist 1 ∧ 0 ≤ r.dist 2 ∧ 0 ≤ r.dist 3 ∧ 0 ≤ r.dist 4 ∧ 0 ≤ r.dist 5

/-- The spec's rating-aggregate invariant: `count == sum(distribution.values())`
and `average == (Σ star*distribution[star]) / count` when `count > 0`, else 0. -/
def RatingsInvariant (r : Ratings) : Prop :=
  r.count = sumDist r.dist ∧
  (0 < r.count → r.average = ((totalScore r.dist : ℤ) : ℚ) / ((r.count : ℤ) : ℚ)) ∧
  (r.count ≤ 0 → r.average = 0)

theorem sumDist_setDist (d : ℕ → ℤ) (s : ℕ) (v : ℤ) (h1 : 1 ≤ s) (h5 : s ≤ 5) :
    sumDist (setDist d s v) = sumDist d + (v - d s) := by
  interval_cases s <;> simp [sumDist, setDist] <;> ring

theorem totalScore_setDist (d : ℕ → ℤ) (s : ℕ) (v : ℤ) (h1 : 1 ≤ s) (h5 : s ≤ 5) :
    totalScore (setDist d s v) = totalScore d + (s : ℤ) * (v - d s) := by
  interval_cases s <;> simp [totalScore, setDist] <;> ring

theorem dist_nonneg_of_buckets (r : Ratings) (h0 : BucketsNonneg r) (s : ℕ)
    (h1 : 1 ≤ s) (h5 : s ≤ 5) : 0 ≤ r.dist s := by
  obtain ⟨a, b, c, d, e⟩ := h0
  interval_cases s <;> assumption

theorem addRating_preserves (r : Ratings) (star : ℕ) (h1 : 1 ≤ star) (h5 : star ≤ 5)
    (h0 : BucketsNonneg r) (hInv : RatingsInvariant r) :
    BucketsNonneg (addRating r star) ∧ RatingsInvariant (addRating r star) := by
  obtain ⟨hc, havgPos, havg0⟩ := hInv
  have hstar : 0 ≤ r.dist star := dist_nonneg_of_buckets r h0 star h1 h5
  obtain ⟨n1, n2, n3, n4, n5⟩ := h0
  have hcount : 0 ≤ r.count := by
    rw [hc]; unfold sumDist; omega
  constructor
  · refine ⟨?_, ?_, ?_, ?_, ?_⟩ <;>
      · show (0 : ℤ) ≤ setDist r.dist star (r.dist star + 1) _
        unfold setDist
        split_ifs <;> omega
  · refine ⟨?_, ?_, ?_⟩
    · show r.count + 1 = sumDist (setDist r.dist star (r.dist star + 1))
      rw [sumDist_setDist r.dist star _ h1 h5, ← hc]; ring
    · intro _
      show (r.average * (r.count : ℚ) + (star : ℚ)) / ((r.count + 1 : ℤ) : ℚ)
          = ((totalScore (setDist r.dist star (r.dist star + 1)) : ℤ) : ℚ)
            / ((r.count + 1 : ℤ) : ℚ)
      rw [totalScore_setDist r.dist star _ h1 h5]
      rcases lt_or_eq_of_le hcount with hpos | hzero
      · rw [havgPos hpos]
        have hne : ((r.count : ℤ) : ℚ) ≠ 0 := by
          exact_mod_cast ne_of_gt (by exact_mod_cast hpos)
        have hne1 : ((r.count + 1 : ℤ) : ℚ) ≠ 0 := by
          have : (0 : ℤ) < r.count + 1 := by omega
          exact_mod_cast ne_of_gt (by exact_mod_cast this)
        field_simp
      · have hz : r.count = 0 := hzero.symm
        have hA : r.average = 0 := havg0 (le_of_eq hz)
        have hall : r.dist 1 = 0 ∧ r.dist 2 = 0 ∧ r.dist 3 = 0 ∧ r.dist 4 = 0 ∧ r.dist 5 = 0 := by
          rw [hz] at hc; unfold sumDist at hc; omega
        have hts : totalScore r.dist = 0 := by
          unfold totalScore; omega
        rw [hA, hz, hts]
        push_cast
        ring
    · intro hle
      exfalso
      have : (addRating r star).count = r.count + 1 := rfl
      omega

theorem updateRating_preserves (r : Ratings) (o n : ℕ)
    (ho1 : 1 ≤ o) (ho5 : o ≤ 5) (hn1 : 1 ≤ n) (hn5 : n ≤ 5)
    (hpos : 0 < r.dist o)
    (h0 : BucketsNonneg r) (hInv : RatingsInvariant r) :
    BucketsNonneg (updateRating r o n) ∧ RatingsInvariant (updateRating r o n) := by
  obtain ⟨hc, _, _⟩ := hInv
  have hdn : 0 ≤ r.dist n := dist_nonneg_of_buckets r h0 n hn1 hn5
  obtain ⟨n1, n2, n3, n4, n5⟩ := h0
  have hsum1 : sumDist (setDist r.dist o (r.dist o - 1)) = sumDist r.dist - 1 := by
    rw [sumDist_setDist r.dist o _ ho1 ho5]; ring
  constructor
  · refine ⟨?_, ?_, ?_, ?_, ?_⟩ <;>
      · show (0 : ℤ) ≤ setDist (setDist r.dist o (r.dist o - 1)) n
            ((setDist r.dist o (r.dist o - 1)) n + 1) _
        unfold setDist
        split_ifs <;> omega
  · refine ⟨?_, ?_, ?_⟩
    · show r.count = sumDist (setDist (setDist r.dist o (r.dist o - 1)) n
          ((setDist r.dist o (r.dist o - 1)) n + 1))
      rw [sumDist_setDist _ n _ hn1 hn5, hsum1, ← hc]; ring
    · intro hp
      have hp' : 0 < r.count := hp
      simp only [updateRating]
      rw [if_pos hp']
    · intro hle
      have hle' : r.count ≤ 0 := hle
      simp only [updateRating]
      rw [if_neg (not_lt.mpr hle')]

theorem removeRating_preserves (r : Ratings) (s : ℕ) (h1 : 1 ≤ s) (h5 : s ≤ 5)
    (hpos : 0 < r.dist s) (hcpos : 0 < r.count)
    (h0 : BucketsNonneg r) (hInv : RatingsInvariant r) :
    BucketsNonneg (removeRatingAggregate r s) ∧
      RatingsInvariant (removeRatingAggregate r s) := by
  obtain ⟨hc, _, _⟩ := hInv
  obtain ⟨n1, n2, n3, n4, n5⟩ := h0
  constructor
  · refine ⟨?_, ?_, ?_, ?_, ?_⟩ <;>
      · show (0 : ℤ) ≤ setDist r.dist s (r.dist s - 1) _
        unfold setDist
        split_ifs <;> omega
  · refine ⟨?_, ?_, ?_⟩
    · show r.count - 1 = sumDist (setDist r.dist s (r.dist s - 1))
      rw [sumDist_setDist r.dist s _ h1 h5, ← hc]; ring
    · intro hp
      have hp' : 0 < r.count - 1 := hp
      simp only [removeRatingAggregate]
      rw [if_pos hp']
    · intro hle
      have hle' : r.count - 1 ≤ 0 := hle
      simp only [removeRatingAggregate]
      rw [if_neg (not_lt.mpr hle')]

/-- C1: for every song whose rating aggregate satisfies the invariant
(`count` equals the sum of `distribution[1..5]`, and `average` equals
`(Σ star*distribution[star])/count` when `count > 0`, else 0; buckets are
counts, hence non-negative), each of `addRating(star)` with `star` in 1..5,
`updateRating(oldStar, newStar)` with `distribution[oldStar] > 0`, and the
remove-rating operation with `distribution[star] > 0` and `count > 0`
produces a state that again satisfies the invariant, with `average`
compared exactly under rational arithmetic. -/
theorem rating_operations_preserve_invariant (r : Ratings)
    (h0 : BucketsNonneg r) (hInv : RatingsInvariant r) :
    (∀ star, 1 ≤ star → star ≤ 5 →
      BucketsNonneg (addRating r star) ∧ RatingsInvariant (addRating r star)) ∧
    (∀ o n, 1 ≤ o → o ≤ 5 → 1 ≤ n → n ≤ 5 → 0 < r.dist o →
      BucketsNonneg (updateRating r o n) ∧ RatingsInvariant (updateRating r o n)) ∧
    (∀ s, 1 ≤ s → s ≤ 5 → 0 < r.dist s → 0 < r.count →
      BucketsNonneg (removeRatingAggregate r s) ∧
        RatingsInvariant (removeRatingAggregate r s)) :=
  ⟨fun star a b => addRating_preserves r star a b h0 hInv,
   fun o n a b c d e => updateRating_preserves r o n a b c d e h0 hInv,
   fun s a b c d => removeRating_preserves r s a b c d h0 hInv⟩

/-- A concrete aggregate: one 4-star rating. -/
def exampleRatings : Ratings :=
  { average := 4, count := 1, dist := fun i => if i = 4 then 1 else 0 }

theorem exampleRatings_nonneg : BucketsNonneg exampleRatings := by
  refine ⟨?_, ?_, ?_, ?_, ?_⟩ <;> simp [exampleRatings]

theorem exampleRatings_invariant : RatingsInvariant exampleRatings := by
  refine ⟨by simp [exampleRatings, sumDist], ?_, ?_⟩
  · intro _
    show (4 : ℚ) = _
    norm_num [exampleRatings, totalScore]
  · intro h
    simp [exampleRatings] at h

/-- Witness for C1: the invariant-preservation theorem applied to a concrete
aggregate with one 4-star rating, for each of the three operations. -/
theorem rating_operations_preserve_invariant_witness :
    BucketsNonneg exampleRatings ∧ RatingsInvariant exampleRatings ∧
    RatingsInvariant (addRating exampleRatings 3) ∧
    RatingsInvariant (updateRating exampleRatings 4 5) ∧
    RatingsInvariant (removeRatingAggregate exampleRatings 4) := by
  have h := rating_operations_preserve_invariant exampleRatings
    exampleRatings_nonneg exampleRatings_invariant
  refine ⟨exampleRatings_nonneg, exampleRatings_invariant, ?_, ?_, ?_⟩
  · exact (h.1 3 (by norm_num) (by norm_num)).2
  · exact (h.2.1 4 5 (by norm_num) (by norm_num) (by norm_num) (by norm_num)
      (by norm_num [exampleRatings])).2
  · exact (h.2.2 4 (by norm_num) (by norm_num) (by norm_num [exampleRatings])
      (by norm_num [exampleRatings])).2

/-! ### C6: `updateRating` on an empty `oldStar` bucket -/

/-- A concrete aggregate with no ratings at all. -/
def zeroRatings : Ratings :=
  { average := 0, count := 0, dist := fun _ => 0 }

/-- C6 counterexample: `updateRating` performs no underflow check.  On a song
with an empty `oldStar` bucket it does not fail with `InvalidState`; it
changes the aggregate, driving `distribution[oldStar]` to -1. -/
theorem updateRating_underflow_counterexample :
    zeroRatings.dist 1 = 0 ∧
    (updateRating zeroRatings 1 5).dist 1 = -1 ∧
    (updateRating zeroRatings 1 5).dist 5 = 1 ∧
    (updateRating zeroRatings 1 5).dist 1 ≠ zeroRatings.dist 1 := by
  refine ⟨rfl, ?_, ?_, ?_⟩ <;> simp [updateRating, setDist, zeroRatings]

/-- C6 (amended): `updateRating(oldStar, newStar)` with
`distribution[oldStar] == 0` and `oldStar ≠ newStar` does not fail: it
succeeds, setting `distribution[oldStar]` to -1 and incrementing
`distribution[newStar]`, with `count` unchanged (the source has no
underflow guard and no `InvalidState` error). -/
theorem updateRating_underflow_amended (r : Ratings) (o n : ℕ)
    (hne : o ≠ n) (hz : r.dist o = 0) :
    (updateRating r o n).dist o = -1 ∧
    (updateRating r o n).dist n = r.dist n + 1 ∧
    (updateRating r o n).count = r.count := by
  refine ⟨?_, ?_, rfl⟩
  · show setDist (setDist r.dist o (r.dist o - 1)) n
        ((setDist r.dist o (r.dist o - 1)) n + 1) o = -1
    unfold setDist
    simp [hne, Ne.symm hne, hz]
  · show setDist (setDist r.dist o (r.dist o - 1)) n
        ((setDist r.dist o (r.dist o - 1)) n + 1) n = r.dist n + 1
    unfold setDist
    simp [hne, Ne.symm hne]

/-- Witness for the amended C6 at a concrete empty aggregate. -/
theorem updateRating_underflow_amended_witness :
    (1 : ℕ) ≠ 5 ∧ zeroRatings.dist 1 = 0 ∧
    (updateRating zeroRatings 1 5).dist 1 = -1 := by
  refine ⟨by norm_num, rfl, ?_⟩
  exact (updateRating_underflow_amended zeroRatings 1 5 (by norm_num) rfl).1

/-! ## Playlist data model (`src/models/Playlist.js`) -/

/-- One element of the `collaborators` array: `{ user, permissions }`
(the schema restricts `permissions` to `'view' | 'edit' | 'admin'`). -/
structure Collaborator where
  user : ℕ
  permissions : String
deriving DecidableEq

/-- One element of the `followers` array: `{ user, followedAt }`. -/
structure Follower where
  user : ℕ
  followedAt : ℕ
deriving DecidableEq

/-- One element of the `songs` array: `{ song, addedBy, position }`
(`addedAt` is omitted; it plays no role in any claim). -/
structure Entry where
  song : ℕ
  addedBy : ℕ
  position : ℕ
deriving DecidableEq

/-- The playlist fields used by the claims. -/
structure Playlist where
  owner : ℕ
  privacy : String
  collaborators : List Collaborator
  followers : List Follower
  songs : List Entry
deriving DecidableEq

/-- The JS object `permissionLevels = { view: 1, edit: 2, admin: 3 }`;
indexing with any other key yields `undefined`, modelled as `none`. -/
def permissionLevels (s : String) : Option ℕ :=
  if s = "view" then some 1
  else if s = "edit" then some 2
  else if s = "admin" then some 3
  else none

/-- JS `>=` where either operand may be `undefined`: any comparison
involving `undefined` evaluates to `false`. -/
def jsGE : Option ℕ → Option ℕ → Bool
  | some a, some b => decide (a ≥ b)
  | _, _ => false

theorem jsGE_none (x : Option ℕ) : jsGE x none = false := by
  cases x <;> rfl

/-- `playlistSchema.methods.hasPermission` (`src/models/Playlist.js`
lines 228-245): the owner has all permissions; otherwise the first
matching collaborator entry is compared by level; otherwise access is
granted only for `view` on a `public` playlist. -/
def hasPermission (p : Playlist) (userId : ℕ) (requiredPermission : String) : Bool :=
  if p.owner == userId then true
  else
    match p.collaborators.find? (fun c => c.user == userId) with
    | none => p.privacy == "public" && requiredPermission == "view"
    | some c => jsGE (permissionLevels c.permissions) (permissionLevels requiredPermission)

/-- The numeric level of a permission string under the source's
`permissionLevels` table (0 for unknown strings, used only to state
the ordering `view(1) < edit(2) < admin(3)`). -/
def levelOf (s : String) : ℕ :=
  (permissionLevels s).getD 0

/-- C3: for every playlist, user id, and required level in
{view, edit, admin}: `hasPermission` returns true for the owner at every
required level; for a (first matching) collaborator entry it returns true
exactly when the collaborator's level is ≥ the required level under the
ordering view(1) < edit(2) < admin(3); and for a user who is neither owner
nor collaborator it returns true exactly when the required level is view
and the playlist's privacy is public. -/
theorem hasPermission_characterization (p : Playlist) (userId : ℕ) (req : String)
    (hreq : req = "view" ∨ req = "edit" ∨ req = "admin") :
    (p.owner = userId → hasPermission p userId req = true) ∧
    (p.owner ≠ userId →
      ∀ c, p.collaborators.find? (fun c => c.user == userId) = some c →
        (c.permissions = "view" ∨ c.permissions = "edit" ∨ c.permissions = "admin") →
        (hasPermission p userId req = true ↔ levelOf c.permissions ≥ levelOf req)) ∧
    (p.owner ≠ userId →
      p.collaborators.find? (fun c => c.user == userId) = none →
      (hasPermission p userId req = true ↔ req = "view" ∧ p.privacy = "public")) := by
  refine ⟨?_, ?_, ?_⟩
  · intro h
    simp [hasPermission, h]
  · intro hne c hfind hcp
    have hown : (p.owner == userId) = false := by simp [hne]
    rcases hcp with h1 | h1 | h1 <;> rcases hreq with h2 | h2 | h2 <;>
      simp [hasPermission, hown, hfind, h1, h2, jsGE, permissionLevels, levelOf]
  · intro hne hfind
    have hown : (p.owner == userId) = false := by simp [hne]
    rcases hreq with h2 | h2 | h2 <;>
      simp [hasPermission, hown, hfind, h2, and_comm]

/-- C9: calling `hasPermission` with a `requiredPermission` string outside
{view, edit, admin} — as the legacy `DELETE /:id` route does with
`'delete'` — returns true exactly for the playlist owner: every
collaborator (whose level comparison against `undefined` is false) and
every non-collaborator (whose branch requires `requiredPermission ==
'view'`) is denied. -/
theorem hasPermission_unknown_level_owner_only (p : Playlist) (userId : ℕ) (req : String)
    (h1 : req ≠ "view") (h2 : req ≠ "edit") (h3 : req ≠ "admin") :
    (hasPermission p userId req = true ↔ p.owner = userId) := by
  have hlv : permissionLevels req = none := by
    simp [permissionLevels, h1, h2, h3]
  by_cases how : p.owner = userId
  · simp [hasPermission, how]
  · have hown : (p.owner == userId) = false := by simp [how]
    cases hfind : p.collaborators.find? (fun c => c.user == userId) with
    | none => simp [hasPermission, hown, hfind, h1, how]
    | some c => simp [hasPermission, hown, hfind, hlv, jsGE_none, how]

/-- A concrete playlist: owner 1, a `view`-level collaborator 2,
one follower 3, three songs at positions 1..3, public privacy. -/
def samplePlaylist : Playlist :=
  { owner := 1
    privacy := "public"
    collaborators := [⟨2, "view"⟩]
    followers := [⟨3, 10⟩]
    songs := [⟨100, 1, 1⟩, ⟨200, 1, 2⟩, ⟨300, 1, 3⟩] }

/-- Witness for C3: the characterization applied to a concrete playlist:
the owner passes an `edit` check, the `view`-level collaborator fails an
`edit` check, and a stranger passes `view` on the public playlist. -/
theorem hasPermission_characterization_witness :
    hasPermission samplePlaylist 1 "edit" = true ∧
    hasPermission samplePlaylist 2 "edit" = false ∧
    hasPermission samplePlaylist 9 "view" = true := by
  have hA := hasPermission_characterization samplePlaylist 1 "edit" (Or.inr (Or.inl rfl))
  have hB := hasPermission_characterization samplePlaylist 2 "edit" (Or.inr (Or.inl rfl))
  have hC := hasPermission_characterization samplePlaylist 9 "view" (Or.inl rfl)
  refine ⟨hA.1 rfl, ?_, ?_⟩
  · have hiff := hB.2.1 (by decide) ⟨2, "view"⟩ (by rfl) (Or.inl rfl)
    cases hval : hasPermission samplePlaylist 2 "edit" with
    | false => rfl
    | true => exact absurd (hiff.1 hval) (by decide)
  · exact (hC.2.2 (by decide) (by rfl)).2 ⟨rfl, rfl⟩

/-- Witness for C9 at the concrete playlist, with the legacy route's
`'delete'` string: only the owner passes. -/
theorem hasPermission_unknown_level_owner_only_witness :
    hasPermission samplePlaylist 1 "delete" = true ∧
    hasPermission samplePlaylist 2 "delete" = false ∧
    hasPermission samplePlaylist 9 "delete" = false := by
  have h1 := hasPermission_unknown_level_owner_only samplePlaylist 1 "delete"
    (by decide) (by decide) (by decide)
  have h2 := hasPermission_unknown_level_owner_only samplePlaylist 2 "delete"
    (by decide) (by decide) (by decide)
  have h9 := hasPermission_unknown_level_owner_only samplePlaylist 9 "delete"
    (by decide) (by decide) (by decide)
  refine ⟨h1.2 rfl, ?_, ?_⟩
  · cases hval : hasPermission samplePlaylist 2 "delete" with
    | false => rfl
    | true => exact absurd (h2.1 hval) (by decide)
  · cases hval : hasPermission samplePlaylist 9 "delete" with
    | false => rfl
    | true => exact absurd (h9.1 hval) (by decide)

/-! ## Follow toggle (`src/models/Playlist.js` lines 204-219) -/

/-- JS `Array.prototype.findIndex`, with `none` standing for `-1`. -/
def jsFindIndex {α : Type} (pred : α → Bool) : List α → Option ℕ
  | [] => none
  | x :: xs => if pred x then some 0 else (jsFindIndex pred xs).map (· + 1)

theorem jsFindIndex_eq_none_iff {α : Type} (pred : α → Bool) (l : List α) :
    jsFindIndex pred l = none ↔ ∀ x ∈ l, pred x = false := by
  induction l with
  | nil => simp [jsFindIndex]
  | cons x xs ih =>
    by_cases h : pred x = true
    · simp [jsFindIndex, h]
    · have h' : pred x = false := by simpa using h
      simp [jsFindIndex, h', ih]

theorem jsFindIndex_some {α : Type} (pred : α → Bool) (l : List α) (i : ℕ)
    (h : jsFindIndex pred l = some i) :
    ∃ hi : i < l.length, pred (l.get ⟨i, hi⟩) = true := by
  induction l generalizing i with
  | nil => simp [jsFindIndex] at h
  | cons x xs ih =>
    by_cases hx : pred x = true
    · simp [jsFindIndex, hx] at h
      subst h
      exact ⟨by simp, hx⟩
    · have hx' : pred x = false := by simpa using hx
      simp [jsFindIndex, hx'] at h
      obtain ⟨j, hj, rfl⟩ := h
      obtain ⟨hlt, hget⟩ := ih j hj
      exact ⟨by simpa using Nat.succ_lt_succ hlt, by simpa using hget⟩

theorem jsFindIndex_append_not_found {α : Type} (pred : α → Bool) (l : List α) (x : α)
    (hl : ∀ y ∈ l, pred y = false) (hx : pred x = true) :
    jsFindIndex pred (l ++ [x]) = some l.length := by
  induction l with
  | nil => simp [jsFindIndex, hx]
  | cons y ys ih =>
    have hy : pred y = false := hl y (by simp)
    have hys : ∀ z ∈ ys, pred z = false := fun z hz => hl z (by simp [hz])
    simp [jsFindIndex, hy, ih hys]

theorem eraseIdx_append_length {α : Type} (l : List α) (x : α) :
    (l ++ [x]).eraseIdx l.length = l := by
  induction l with
  | nil => rfl
  | cons y ys ih => simp [List.eraseIdx, ih]

/-- Removing the element at a valid index and re-consing it yields a
permutation of the original list. -/
theorem perm_get_cons_eraseIdx {α : Type} (l : List α) (i : ℕ) (hi : i < l.length) :
    List.Perm (l.get ⟨i, hi⟩ :: l.eraseIdx i) l := by
  induction l generalizing i with
  | nil => simp at hi
  | cons x xs ih =>
    cases i with
    | zero => simp [List.eraseIdx]
    | succ j =>
      have hj : j < xs.length := by simpa using hi
      have step : List.Perm (xs.get ⟨j, hj⟩ :: x :: xs.eraseIdx j) (x :: xs.get ⟨j, hj⟩ :: xs.eraseIdx j) :=
        List.Perm.swap x (xs.get ⟨j, hj⟩) (xs.eraseIdx j)
      have : (x :: xs).get ⟨j + 1, hi⟩ :: (x :: xs).eraseIdx (j + 1)
          = xs.get ⟨j, hj⟩ :: x :: xs.eraseIdx j := by
        simp [List.eraseIdx]
      rw [this]
      exact step.trans ((ih j hj).cons x)

/-- `playlistSchema.methods.toggleFollow`: if a follower entry for
`userId` exists (by `findIndex`), remove it (`splice`) and report
"unfollowed"; otherwise push a new entry with the current date and
report "followed". -/
def toggleFollow (followers : List Follower) (userId : ℕ) (now : ℕ) :
    String × List Follower :=
  match jsFindIndex (fun f => f.user == userId) followers with
  | some i => ("unfollowed", followers.eraseIdx i)
  | none => ("followed", followers ++ [⟨userId, now⟩])

/-- C8: for every playlist (whose followers satisfy the documented
at-most-one-entry-per-user invariant) and every non-owner user, applying
`toggleFollow` twice with that user returns the followers list to its
original membership set: the user is added then removed, or removed then
re-added, so toggle-follow is an involution on the set of follower user
references. -/
theorem toggleFollow_involution (p : Playlist) (u now1 now2 : ℕ)
    (howner : u ≠ p.owner)
    (hnodup : (p.followers.map Follower.user).Nodup) :
    ∀ v, (v ∈ (toggleFollow (toggleFollow p.followers u now1).2 u now2).2.map Follower.user
          ↔ v ∈ p.followers.map Follower.user) := by
  intro v
  cases hfind : jsFindIndex (fun f => f.user == u) p.followers with
  | none =>
    -- first call pushes the new follower; the second finds and removes it
    have habsent : ∀ f ∈ p.followers, (f.user == u) = false :=
      (jsFindIndex_eq_none_iff _ _).mp hfind
    have hfind2 : jsFindIndex (fun f => f.user == u) (p.followers ++ [⟨u, now1⟩])
        = some p.followers.length :=
      jsFindIndex_append_not_found _ _ _ habsent (by simp)
    simp only [toggleFollow, hfind, hfind2]
    rw [eraseIdx_append_length]
  | some i =>
    -- first call removes the unique entry; the second re-adds the user
    obtain ⟨hi, hget⟩ := jsFindIndex_some _ _ _ hfind
    have hgetu : (p.followers.get ⟨i, hi⟩).user = u := by simpa using hget
    have hperm : List.Perm (p.followers.get ⟨i, hi⟩ :: p.followers.eraseIdx i) p.followers :=
      perm_get_cons_eraseIdx p.followers i hi
    have hgetu' : p.followers[i].user = u := by
      simpa [List.get_eq_getElem] using hgetu
    have hpermu : List.Perm (u :: (p.followers.eraseIdx i).map Follower.user)
        (p.followers.map Follower.user) := by
      have := hperm.map Follower.user
      simpa [hgetu'] using this
    have hnodup' : (u :: (p.followers.eraseIdx i).map Follower.user).Nodup :=
      (hpermu.nodup_iff).mpr hnodup
    have hu_not : u ∉ (p.followers.eraseIdx i).map Follower.user :=
      (List.nodup_cons.mp hnodup').1
    have habsent2 : ∀ f ∈ p.followers.eraseIdx i, (f.user == u) = false := by
      intro f hf
      have : f.user ≠ u := by
        intro hcontra
        exact hu_not (by exact hcontra ▸ List.mem_map_of_mem Follower.user hf)
      simpa using this
    have hfind2 : jsFindIndex (fun f => f.user == u) (p.followers.eraseIdx i) = none :=
      (jsFindIndex_eq_none_iff _ _).mpr habsent2
    simp only [toggleFollow, hfind, hfind2]
    have hmem := hpermu.mem_iff (a := v)
    simp only [List.map_append, List.mem_append, List.map_cons, List.mem_cons] at hmem ⊢
    simp only [List.map_nil]
    constructor
    · intro hcase
      rcases hcase with h | h
      · exact hmem.mp (Or.inr h)
      · simp at h
        exact hmem.mp (Or.inl h)
    · intro hcase
      rcases hmem.mpr hcase with h | h
      · exact Or.inr (by simp [h])
      · exact Or.inl h

/-- Witness for C8 on the concrete playlist (follower list `[⟨3, 10⟩]`,
toggling user 2 who is not the owner and not yet a follower). -/
theorem toggleFollow_involution_witness :
    (2 : ℕ) ≠ samplePlaylist.owner ∧
    ((2 : ℕ) ∈ (toggleFollow (toggleFollow samplePlaylist.followers 2 11).2 2 12).2.map
        Follower.user ↔ (2 : ℕ) ∈ samplePlaylist.followers.map Follower.user) ∧
    ((3 : ℕ) ∈ (toggleFollow (toggleFollow samplePlaylist.followers 2 11).2 2 12).2.map
        Follower.user ↔ (3 : ℕ) ∈ samplePlaylist.followers.map Follower.user) := by
  have h := toggleFollow_involution samplePlaylist 2 11 12 (by decide) (by decide)
  exact ⟨by decide, h 2, h 3⟩

/-! ## Playlist membership (`src/models/Playlist.js` lines 308-357) -/

/-- The renumbering loop
`this.songs.forEach((song, index) => { song.position = index + 1 })`,
generalized over the number of entries already passed. -/
def renumberFrom : ℕ → List Entry → List Entry
  | _, [] => []
  | k, e :: es => { e with position := k + 1 } :: renumberFrom (k + 1) es

def renumber (l : List Entry) : List Entry := renumberFrom 0 l

/-- The position sequence `[k+1, k+2, ..., k+n]`. -/
def posRange (k : ℕ) : ℕ → List ℕ
  | 0 => []
  | n + 1 => (k + 1) :: posRange (k + 1) n

/-- The membership invariant: no song reference appears twice, and the
positions in array order are exactly `1..N` (`N` = number of entries). -/
def MembershipInv (l : List Entry) : Prop :=
  (l.map Entry.song).Nodup ∧ l.map Entry.position = posRange 0 l.length

instance (l : List Entry) : Decidable (MembershipInv l) := by
  unfold MembershipInv
  infer_instance

/-- `playlistSchema.methods.addSong`: throws
`'Song already exists in playlist'` if the song is present, otherwise
appends an entry at `position = this.songs.length + 1`. -/
def addSong (songs : List Entry) (songId userId : ℕ) : Except String (List Entry) :=
  if songs.any (fun s => s.song == songId) then
    .error "Song already exists in playlist"
  else
    .ok (songs ++ [⟨songId, userId, songs.length + 1⟩])

/-- `playlistSchema.methods.removeSong`: throws
`'Song not found in playlist'` if absent, otherwise splices the entry out
and renumbers all positions to `index + 1`. -/
def removeSong (songs : List Entry) (songId : ℕ) : Except String (List Entry) :=
  match jsFindIndex (fun s => s.song == songId) songs with
  | none => .error "Song not found in playlist"
  | some i => .ok (renumber (songs.eraseIdx i))

/-- JS `splice(start, ...)` start-index normalization: a negative start
counts from the end (clamped at 0); a non-negative start is used as is
(our `insertAt` clamps an overflowing index to the array end, as `splice`
does). -/
def spliceStart (start : ℤ) (len : ℕ) : ℕ :=
  if start < 0 then ((len : ℤ) + start).toNat else start.toNat

/-- Insertion at an index, clamping an out-of-range index to the end
(the behaviour of `splice(idx, 0, x)`). -/
def insertAt {α : Type} : List α → ℕ → α → List α
  | l, 0, a => a :: l
  | [], _ + 1, a => [a]
  | x :: xs, n + 1, a => x :: insertAt xs n a

/-- `playlistSchema.methods.reorderSongs`: throws
`'Song not found in playlist'` if absent; otherwise splices the entry out,
re-inserts it at `newPosition - 1`, and renumbers all positions.  The
source has no range check on `newPosition`. -/
def reorderSongs (songs : List Entry) (songId : ℕ) (newPosition : ℤ) :
    Except String (List Entry) :=
  match jsFindIndex (fun s => s.song == songId) songs with
  | none => .error "Song not found in playlist"
  | some i =>
    let e := songs.getD i ⟨0, 0, 0⟩
    let rest := songs.eraseIdx i
    .ok (renumber (insertAt rest (spliceStart (newPosition - 1) rest.length) e))

theorem map_song_renumberFrom (k : ℕ) (l : List Entry) :
    (renumberFrom k l).map Entry.song = l.map Entry.song := by
  induction l generalizing k with
  | nil => rfl
  | cons e es ih => simp [renumberFrom, ih]

theorem map_position_renumberFrom (k : ℕ) (l : List Entry) :
    (renumberFrom k l).map Entry.position = posRange k l.length := by
  induction l generalizing k with
  | nil => rfl
  | cons e es ih => simp [renumberFrom, posRange, ih]

theorem length_renumberFrom (k : ℕ) (l : List Entry) :
    (renumberFrom k l).length = l.length := by
  induction l generalizing k with
  | nil => rfl
  | cons e es ih => simp [renumberFrom, ih]

theorem posRange_snoc (k n : ℕ) :
    posRange k n ++ [k + n + 1] = posRange k (n + 1) := by
  induction n generalizing k with
  | zero => simp [posRange]
  | succ m ih =>
    have h := ih (k + 1)
    simp only [posRange, List.cons_append]
    rw [show k + (m + 1) + 1 = (k + 1) + m + 1 from by omega]
    rw [h]
    rfl

theorem insertAt_perm {α : Type} (l : List α) (n : ℕ) (a : α) :
    List.Perm (insertAt l n a) (a :: l) := by
  induction l generalizing n with
  | nil => cases n <;> exact List.Perm.refl _
  | cons x xs ih =>
    cases n with
    | zero => exact List.Perm.refl _
    | succ m => exact ((ih m).cons x).trans (List.Perm.swap a x xs)

theorem insertAt_ge_length {α : Type} (l : List α) (n : ℕ) (a : α)
    (h : l.length ≤ n) : insertAt l n a = l ++ [a] := by
  induction l generalizing n with
  | nil => cases n <;> rfl
  | cons x xs ih =>
    cases n with
    | zero => simp at h
    | succ m => simp [insertAt, ih m (by simpa using h)]

/-- A renumbered list always satisfies the position half of the invariant. -/
theorem renumber_positions (l : List Entry) :
    (renumber l).map Entry.position = posRange 0 (renumber l).length := by
  rw [renumber, map_position_renumberFrom, length_renumberFrom]

theorem addSong_ok_inv (l : List Entry) (songId userId : ℕ) (l' : List Entry)
    (hInv : MembershipInv l) (h : addSong l songId userId = .ok l') :
    MembershipInv l' := by
  unfold addSong at h
  by_cases hany : l.any (fun s => s.song == songId)
  · rw [if_pos hany] at h
    cases h
  · rw [if_neg hany] at h
    obtain rfl : l ++ [⟨songId, userId, l.length + 1⟩] = l' := by
      cases h; rfl
    obtain ⟨hnd, hpos⟩ := hInv
    constructor
    · have hnotmem : songId ∉ l.map Entry.song := by
        intro hmem
        obtain ⟨e, he, heq⟩ := List.mem_map.mp hmem
        exact hany (List.any_eq_true.mpr ⟨e, he, by simp [heq]⟩)
      simp only [List.map_append, List.map_cons, List.map_nil]
      rw [List.nodup_append]
      refine ⟨hnd, List.nodup_singleton _, ?_⟩
      intro x hx hxa
      simp at hxa
      subst hxa
      exact hnotmem hx
    · simp only [List.map_append, List.map_cons, List.map_nil,
        List.length_append, List.length_cons, List.length_nil]
      rw [hpos]
      have h0 := posRange_snoc 0 l.length
      simpa using h0

theorem removeSong_ok_inv (l : List Entry) (songId : ℕ) (l' : List Entry)
    (hInv : MembershipInv l) (h : removeSong l songId = .ok l') :
    MembershipInv l' := by
  unfold removeSong at h
  cases hfind : jsFindIndex (fun s => s.song == songId) l with
  | none => rw [hfind] at h; cases h
  | some i =>
    rw [hfind] at h
    obtain rfl : renumber (l.eraseIdx i) = l' := by cases h; rfl
    refine ⟨?_, renumber_positions _⟩
    rw [renumber, map_song_renumberFrom]
    exact hInv.1.sublist ((List.eraseIdx_sublist l i).map Entry.song)

theorem reorderSongs_ok_inv (l : List Entry) (songId : ℕ) (pos : ℤ) (l' : List Entry)
    (hInv : MembershipInv l) (h : reorderSongs l songId pos = .ok l') :
    MembershipInv l' := by
  unfold reorderSongs at h
  cases hfind : jsFindIndex (fun s => s.song == songId) l with
  | none => rw [hfind] at h; cases h
  | some i =>
    rw [hfind] at h
    obtain rfl : renumber (insertAt (l.eraseIdx i)
        (spliceStart (pos - 1) (l.eraseIdx i).length) (l.getD i ⟨0, 0, 0⟩)) = l' := by
      cases h; rfl
    obtain ⟨hi, _⟩ := jsFindIndex_some _ _ _ hfind
    have hgetD : l.getD i ⟨0, 0, 0⟩ = l.get ⟨i, hi⟩ := by
      simp [List.getD_eq_getElem?_getD, List.getElem?_eq_getElem hi]
    refine ⟨?_, renumber_positions _⟩
    rw [renumber, map_song_renumberFrom]
    have hp1 : List.Perm (insertAt (l.eraseIdx i)
        (spliceStart (pos - 1) (l.eraseIdx i).length) (l.getD i ⟨0, 0, 0⟩))
        (l.getD i ⟨0, 0, 0⟩ :: l.eraseIdx i) := insertAt_perm _ _ _
    have hp2 : List.Perm (l.getD i ⟨0, 0, 0⟩ :: l.eraseIdx i) l := by
      rw [hgetD]; exact perm_get_cons_eraseIdx l i hi
    exact ((hp1.trans hp2).map Entry.song).nodup_iff.mpr hInv.1

/-- A membership mutation, as invoked by the routes. -/
inductive MembershipOp where
  | add (songId userId : ℕ)
  | remove (songId : ℕ)
  | reorder (songId : ℕ) (newPosition : ℤ)

def applyOp (l : List Entry) : MembershipOp → Except String (List Entry)
  | .add s u => addSong l s u
  | .remove s => removeSong l s
  | .reorder s p => reorderSongs l s p

/-- Runs a sequence of membership operations, stopping at the first error
(a thrown error aborts the request before any save). -/
def runOps (l : List Entry) : List MembershipOp → Except String (List Entry)
  | [] => .ok l
  | op :: ops =>
    match applyOp l op with
    | .error e => .error e
    | .ok l' => runOps l' ops

/-- C2: for every playlist whose songs array has distinct song references
and positions forming the contiguous sequence `1..N` in array order, after
any sequence of successful `addSong`, `removeSong`, and `reorderSongs`
operations the songs array again has distinct song references and
positions exactly `1..N`, with no gaps or duplicates. -/
theorem membership_operations_preserve_invariant (ops : List MembershipOp)
    (l l' : List Entry) (hInv : MembershipInv l) (hrun : runOps l ops = .ok l') :
    MembershipInv l' := by
  induction ops generalizing l with
  | nil =>
    obtain rfl : l = l' := by
      unfold runOps at hrun
      cases hrun; rfl
    exact hInv
  | cons op ops ih =>
    unfold runOps at hrun
    cases happ : applyOp l op with
    | error e => rw [happ] at hrun; cases hrun
    | ok lmid =>
      rw [happ] at hrun
      refine ih lmid ?_ hrun
      cases op with
      | add s u => exact addSong_ok_inv l s u lmid hInv happ
      | remove s => exact removeSong_ok_inv l s lmid hInv happ
      | reorder s p => exact reorderSongs_ok_inv l s p lmid hInv happ

/-- Witness for C2: a concrete add / reorder / remove sequence on the
sample playlist's songs, evaluated concretely, preserves the invariant. -/
theorem membership_operations_preserve_invariant_witness :
    MembershipInv samplePlaylist.songs ∧
    runOps samplePlaylist.songs
        [.add 400 2, .reorder 300 1, .remove 100]
      = .ok [⟨300, 1, 1⟩, ⟨200, 1, 2⟩, ⟨400, 2, 3⟩] ∧
    MembershipInv [⟨300, 1, 1⟩, ⟨200, 1, 2⟩, ⟨400, 2, 3⟩] := by
  refine ⟨by decide, by rfl, ?_⟩
  exact membership_operations_preserve_invariant
    [.add 400 2, .reorder 300 1, .remove 100]
    samplePlaylist.songs _ (by decide) (by rfl)

/-! ## Playlist song route handlers (`src/unnamed/part_001`) -/

/-- The Song fields consulted by the playlist routes and by
`updateMetadata`. -/
structure SongDoc where
  duration : ℕ
  genre : List String
  language : String
  ratingsAverage : ℚ
  ratingsCount : ℤ
  status : String
deriving DecidableEq

/-- The `POST /:id/songs` handler (given that the playlist was found):
permission check (`edit`) → 403; song missing or not `active` → 404;
`addSong`, whose `'Song already exists in playlist'` error maps to
HTTP 400; success → 200 with the updated playlist.  The result pairs the
status code with the (possibly updated) playlist state. -/
def addSongHandler (p : Playlist) (userId songId : ℕ)
    (resolve : ℕ → Option SongDoc) : ℕ × Playlist :=
  if hasPermission p userId "edit" then
    match resolve songId with
    | none => (404, p)
    | some s =>
      if s.status = "active" then
        match addSong p.songs songId userId with
        | .error msg => (if msg = "Song already exists in playlist" then 400 else 500, p)
        | .ok l' => (200, { p with songs := l' })
      else (404, p)
  else (403, p)

/-- The `PUT /:id/songs/:songId/position` handler: express-validator
rejects a position `< 1` with a 400 validation failure before anything
else runs; then the permission check; then `reorderSongs`, whose
`'Song not found in playlist'` error maps to HTTP 404. -/
def reorderSongsHandler (p : Playlist) (userId songId : ℕ) (position : ℤ) :
    ℕ × Playlist :=
  if position < 1 then (400, p)
  else if hasPermission p userId "edit" then
    match reorderSongs p.songs songId position with
    | .error msg => (if msg = "Song not found in playlist" then 404 else 500, p)
    | .ok l' => (200, { p with songs := l' })
  else (403, p)

/-- C7: for every playlist and every songId already present in its
membership, `addSong` fails with the duplicate-member error
(`'Song already exists in playlist'`, surfaced as HTTP 400 by the
add-song route) and leaves the songs array unchanged (the handler returns
the playlist unmodified). -/
theorem addSong_duplicate_rejected (p : Playlist) (userId songId : ℕ)
    (resolve : ℕ → Option SongDoc) (s : SongDoc)
    (hmem : songId ∈ p.songs.map Entry.song)
    (hperm : hasPermission p userId "edit" = true)
    (hres : resolve songId = some s) (hactive : s.status = "active") :
    addSong p.songs songId userId = .error "Song already exists in playlist" ∧
    addSongHandler p userId songId resolve = (400, p) := by
  have hany : p.songs.any (fun e => e.song == songId) = true := by
    obtain ⟨e, he, heq⟩ := List.mem_map.mp hmem
    exact List.any_eq_true.mpr ⟨e, he, by simp [heq]⟩
  have herr : addSong p.songs songId userId
      = .error "Song already exists in playlist" := by
    unfold addSong
    rw [if_pos hany]
  refine ⟨herr, ?_⟩
  simp [addSongHandler, hperm, hres, hactive, herr]

/-- A concrete active song and a resolver for it. -/
def sampleSong : SongDoc :=
  { duration := 180
    genre := ["rock"]
    language := "english"
    ratingsAverage := 4
    ratingsCount := 1
    status := "active" }

def sampleResolve : ℕ → Option SongDoc :=
  fun n => if n = 100 then some sampleSong else none

/-- Witness for C7: adding song 100, already present in the sample
playlist, fails and the route answers 400 with the playlist unchanged. -/
theorem addSong_duplicate_rejected_witness :
    addSong samplePlaylist.songs 100 1 = .error "Song already exists in playlist" ∧
    addSongHandler samplePlaylist 1 100 sampleResolve = (400, samplePlaylist) :=
  addSong_duplicate_rejected samplePlaylist 1 100 sampleResolve sampleSong
    (by decide) (by decide) rfl rfl

/-- C5 counterexample: on the sample playlist (N = 3, song 100 present)
the reorder operation with `newPosition = 5 > N` does not fail with
`InvalidPosition`: it succeeds, the membership changes, and the route
answers 200. -/
theorem reorder_out_of_range_counterexample :
    reorderSongs samplePlaylist.songs 100 5
      = .ok [⟨200, 1, 1⟩, ⟨300, 1, 2⟩, ⟨100, 1, 3⟩] ∧
    (reorderSongs samplePlaylist.songs 100 5).isOk = true ∧
    [(⟨200, 1, 1⟩ : Entry), ⟨300, 1, 2⟩, ⟨100, 1, 3⟩] ≠ samplePlaylist.songs ∧
    reorderSongsHandler samplePlaylist 1 100 5
      = (200, { samplePlaylist with songs := [⟨200, 1, 1⟩, ⟨300, 1, 2⟩, ⟨100, 1, 3⟩] }) :=
  ⟨rfl, rfl, by decide, rfl⟩

/-- C5 (amended): there is no `InvalidPosition` failure in the code.  For
a songId not present the reorder operation fails with the NotFound error
(`'Song not found in playlist'`, membership unchanged); the route rejects
`newPosition < 1` with a 400 validation error before `reorderSongs` runs
(membership unchanged); and whenever the songId is present `reorderSongs`
succeeds for every `newPosition` (out-of-range values are clamped by
`splice`). -/
theorem reorder_error_behaviour (p : Playlist) (userId songId : ℕ) (pos : ℤ) :
    (jsFindIndex (fun s => s.song == songId) p.songs = none →
      reorderSongs p.songs songId pos = .error "Song not found in playlist") ∧
    (pos < 1 → reorderSongsHandler p userId songId pos = (400, p)) ∧
    (∀ i, jsFindIndex (fun s => s.song == songId) p.songs = some i →
      (reorderSongs p.songs songId pos).isOk = true) := by
  refine ⟨?_, ?_, ?_⟩
  · intro hnone
    unfold reorderSongs
    rw [hnone]
  · intro hlt
    unfold reorderSongsHandler
    rw [if_pos hlt]
  · intro i hfind
    unfold reorderSongs
    rw [hfind]
    rfl

/-- Witness for the amended C5: a missing song fails with NotFound, a
position 0 request is rejected by validation with 400, and an in-range
song with position 7 > N succeeds. -/
theorem reorder_error_behaviour_witness :
    reorderSongs samplePlaylist.songs 999 2 = .error "Song not found in playlist" ∧
    reorderSongsHandler samplePlaylist 1 100 0 = (400, samplePlaylist) ∧
    (reorderSongs samplePlaylist.songs 100 7).isOk = true := by
  have h1 := reorder_error_behaviour samplePlaylist 1 999 2
  have h2 := reorder_error_behaviour samplePlaylist 1 100 0
  have h3 := reorder_error_behaviour samplePlaylist 1 100 7
  exact ⟨h1.1 (by rfl), h2.2.1 (by decide), h3.2.2 0 (by rfl)⟩

/-- C10: for every playlist containing songId (found at index i) and every
newPosition strictly greater than the number of entries N, `reorderSongs`
succeeds without raising any error and places the song at the last
position, renumbering all positions to `1..N` (the out-of-range insertion
index is clamped to the array end by `splice`). -/
theorem reorder_beyond_end_clamps (l : List Entry) (songId : ℕ) (pos : ℤ) (i : ℕ)
    (hfind : jsFindIndex (fun s => s.song == songId) l = some i)
    (hpos : (l.length : ℤ) < pos) :
    reorderSongs l songId pos = .ok (renumber (l.eraseIdx i ++ [l.getD i ⟨0, 0, 0⟩])) ∧
    (renumber (l.eraseIdx i ++ [l.getD i ⟨0, 0, 0⟩])).map Entry.position
      = posRange 0 l.length ∧
    (renumber (l.eraseIdx i ++ [l.getD i ⟨0, 0, 0⟩])).map Entry.song
      = (l.eraseIdx i).map Entry.song ++ [songId] := by
  obtain ⟨hi, hget⟩ := jsFindIndex_some _ _ _ hfind
  have hlen : (l.eraseIdx i).length + 1 = l.length := List.length_eraseIdx_add_one hi
  have hstart : spliceStart (pos - 1) (l.eraseIdx i).length = (pos - 1).toNat := by
    unfold spliceStart
    rw [if_neg (by omega)]
  have hge : (l.eraseIdx i).length ≤ (pos - 1).toNat := by omega
  have hins : insertAt (l.eraseIdx i) (spliceStart (pos - 1) (l.eraseIdx i).length)
      (l.getD i ⟨0, 0, 0⟩) = l.eraseIdx i ++ [l.getD i ⟨0, 0, 0⟩] := by
    rw [hstart]
    exact insertAt_ge_length _ _ _ hge
  have hgetD : l.getD i ⟨0, 0, 0⟩ = l.get ⟨i, hi⟩ := by
    simp [List.getD_eq_getElem?_getD, List.getElem?_eq_getElem hi]
  have hsid : (l.get ⟨i, hi⟩).song = songId := by simpa using hget
  refine ⟨?_, ?_, ?_⟩
  · unfold reorderSongs
    rw [hfind]
    simp only []
    rw [hins]
  · rw [renumber, map_position_renumberFrom]
    congr 1
    simp only [List.length_append, List.length_cons, List.length_nil]
    omega
  · rw [renumber, map_song_renumberFrom, hgetD, List.map_append]
    simp only [List.map_cons, List.map_nil]
    rw [hsid]

/-- Witness for C10: moving song 200 of the sample playlist (N = 3) to
position 9 succeeds and appends it at the end. -/
theorem reorder_beyond_end_clamps_witness :
    jsFindIndex (fun s => s.song == 200) samplePlaylist.songs = some 1 ∧
    reorderSongs samplePlaylist.songs 200 9
      = .ok (renumber (samplePlaylist.songs.eraseIdx 1
          ++ [samplePlaylist.songs.getD 1 ⟨0, 0, 0⟩])) := by
  refine ⟨by rfl, ?_⟩
  exact (reorder_beyond_end_clamps samplePlaylist.songs 200 9 1 (by rfl) (by decide)).1

/-! ## Playlist metadata derivation (`src/models/Playlist.js` lines 360-394) -/

/-- JS `Set.prototype.add` on an insertion-ordered list: append if absent
(the order `Array.from` exposes). -/
def setAdd (acc : List String) (g : String) : List String :=
  if g ∈ acc then acc else acc ++ [g]

/-- The local accumulator variables of `updateMetadata`'s forEach loop. -/
structure MetaAcc where
  totalDuration : ℕ
  genres : List String
  languages : List String
  totalRating : ℚ
  ratedSongs : ℕ

/-- The derived `metadata` fields. -/
structure Metadata where
  totalDuration : ℕ
  genres : List String
  languages : List String
  averageRating : ℚ
deriving DecidableEq

/-- One iteration of `this.songs.forEach(item => { if (item.song) ... })`.
The populated `item.song` is `resolve item.song`; a missing (dangling)
reference is `none` and is skipped.  The source checks only truthiness of
`item.song`, never its `status`; `if (item.song.genre)` is always true for
an array; `if (item.song.language)` tests string non-emptiness; the rating
condition is `item.song.ratings.average > 0`. -/
def metaStep (resolve : ℕ → Option SongDoc) (acc : MetaAcc) (item : Entry) : MetaAcc :=
  match resolve item.song with
  | none => acc
  | some s =>
      { totalDuration := acc.totalDuration + s.duration
        genres := s.genre.foldl setAdd acc.genres
        languages :=
          if s.language ≠ "" then setAdd acc.languages s.language else acc.languages
        totalRating :=
          if 0 < s.ratingsAverage then acc.totalRating + s.ratingsAverage
          else acc.totalRating
        ratedSongs :=
          if 0 < s.ratingsAverage then acc.ratedSongs + 1 else acc.ratedSongs }

/-- `playlistSchema.methods.updateMetadata`: folds the membership entries
and derives the metadata;
`averageRating = ratedSongs > 0 ? totalRating / ratedSongs : 0`. -/
def updateMetadata (songs : List Entry) (resolve : ℕ → Option SongDoc) : Metadata :=
  let a := songs.foldl (metaStep resolve) ⟨0, [], [], 0, 0⟩
  { totalDuration := a.totalDuration
    genres := a.genres
    languages := a.languages
    averageRating :=
      if 0 < a.ratedSongs then a.totalRating / (a.ratedSongs : ℚ) else 0 }

/-- The metadata recomputation as the spec words it, for comparison with
the source's `updateMetadata`: entries whose song is missing or whose
song is inactive are excluded from all aggregates, and `averageRating`
averages `ratings.average` over songs with `ratings.count > 0`. -/
def specUpdateMetadata (songs : List Entry) (resolve : ℕ → Option SongDoc) : Metadata :=
  let live := (songs.filterMap (fun item => resolve item.song)).filter
      (fun s => !(s.status == "inactive"))
  let rated := live.filter (fun s => decide (0 < s.ratingsCount))
  { totalDuration := (live.map SongDoc.duration).sum
    genres := live.foldl (fun acc s => s.genre.foldl setAdd acc) []
    languages := live.foldl
      (fun acc s => if s.language ≠ "" then setAdd acc s.language else acc) []
    averageRating :=
      if 0 < rated.length then (rated.map SongDoc.ratingsAverage).sum / (rated.length : ℚ)
      else 0 }

/-- A two-entry membership whose first song is inactive and whose second
song is active but has `ratings.count = 0` with a (stale) positive
`ratings.average`. -/
def cEntries : List Entry := [⟨100, 1, 1⟩, ⟨200, 1, 2⟩]

def cResolve : ℕ → Option SongDoc := fun n =>
  if n = 100 then
    some { duration := 100, genre := ["rock"], language := "english",
           ratingsAverage := 0, ratingsCount := 0, status := "inactive" }
  else if n = 200 then
    some { duration := 50, genre := [], language := "hindi",
           ratingsAverage := 3, ratingsCount := 0, status := "active" }
  else none

/-- C4 counterexample: `updateMetadata` does not exclude inactive songs
(their duration is counted) and averages over `ratings.average > 0`, not
`ratings.count > 0`, so on `cEntries` it disagrees with the spec's
description in both `totalDuration` and `averageRating`. -/
theorem updateMetadata_counterexample :
    (updateMetadata cEntries cResolve).totalDuration = 150 ∧
    (specUpdateMetadata cEntries cResolve).totalDuration = 50 ∧
    (updateMetadata cEntries cResolve).averageRating = 3 ∧
    (specUpdateMetadata cEntries cResolve).averageRating = 0 ∧
    updateMetadata cEntries cResolve ≠ specUpdateMetadata cEntries cResolve := by
  refine ⟨rfl, rfl, ?_, rfl, ?_⟩
  · show (if 0 < (1 : ℕ) then ((0 : ℚ) + 3) / ((1 : ℕ) : ℚ) else 0) = 3
    norm_num
  · intro heq
    have h1 : (updateMetadata cEntries cResolve).totalDuration = 150 := rfl
    rw [heq] at h1
    have h2 : (specUpdateMetadata cEntries cResolve).totalDuration = 50 := rfl
    rw [h2] at h1
    exact absurd h1 (by norm_num)

theorem mem_setAdd (acc : List String) (x g : String) :
    g ∈ setAdd acc x ↔ g ∈ acc ∨ g = x := by
  unfold setAdd
  split_ifs with h
  · constructor
    · exact Or.inl
    · rintro (hg | rfl)
      · exact hg
      · exact h
  · simp

theorem mem_foldl_setAdd (gl : List String) (acc : List String) (g : String) :
    g ∈ gl.foldl setAdd acc ↔ g ∈ acc ∨ g ∈ gl := by
  induction gl generalizing acc with
  | nil => simp
  | cons x xs ih =>
    simp only [List.foldl_cons, ih, mem_setAdd, List.mem_cons]
    tauto

theorem foldl_meta_duration (resolve : ℕ → Option SongDoc) (songs : List Entry)
    (acc : MetaAcc) :
    (songs.foldl (metaStep resolve) acc).totalDuration
      = acc.totalDuration
        + ((songs.filterMap (fun item => resolve item.song)).map SongDoc.duration).sum := by
  induction songs generalizing acc with
  | nil => simp
  | cons e es ih =>
    cases hres : resolve e.song with
    | none => simp [List.foldl_cons, metaStep, hres, ih]
    | some s =>
      rw [List.foldl_cons, ih, @List.filterMap_cons_some _ _ (fun item => resolve item.song) e es s hres]
      simp only [metaStep, hres, List.map_cons, List.sum_cons]
      omega

theorem foldl_meta_genres (resolve : ℕ → Option SongDoc) (songs : List Entry)
    (acc : MetaAcc) (g : String) :
    (g ∈ (songs.foldl (metaStep resolve) acc).genres
      ↔ g ∈ acc.genres
        ∨ ∃ s ∈ songs.filterMap (fun item => resolve item.song), g ∈ s.genre) := by
  induction songs generalizing acc with
  | nil => simp
  | cons e es ih =>
    cases hres : resolve e.song with
    | none => simp [List.foldl_cons, metaStep, hres, ih]
    | some s =>
      rw [List.foldl_cons, ih, @List.filterMap_cons_some _ _ (fun item => resolve item.song) e es s hres]
      simp only [metaStep, hres, mem_foldl_setAdd, List.mem_cons]
      constructor
      · rintro (⟨hg | hg⟩ | ⟨t, ht, hgt⟩)
        · exact Or.inl hg
        · exact Or.inr ⟨s, Or.inl rfl, hg⟩
        · exact Or.inr ⟨t, Or.inr ht, hgt⟩
      · rintro (hg | ⟨t, (rfl | ht), hgt⟩)
        · exact Or.inl (Or.inl hg)
        · exact Or.inl (Or.inr hgt)
        · exact Or.inr ⟨t, ht, hgt⟩

theorem foldl_meta_languages (resolve : ℕ → Option SongDoc) (songs : List Entry)
    (acc : MetaAcc) (lang : String) :
    (lang ∈ (songs.foldl (metaStep resolve) acc).languages
      ↔ lang ∈ acc.languages
        ∨ ∃ s ∈ songs.filterMap (fun item => resolve item.song),
            s.language = lang ∧ s.language ≠ "") := by
  induction songs generalizing acc with
  | nil => simp
  | cons e es ih =>
    cases hres : resolve e.song with
    | none => simp [List.foldl_cons, metaStep, hres, ih]
    | some s =>
      rw [List.foldl_cons, ih, @List.filterMap_cons_some _ _ (fun item => resolve item.song) e es s hres]
      simp only [metaStep, hres, List.mem_cons]
      by_cases hl : s.language = ""
      · rw [if_neg (by simpa using hl)]
        constructor
        · rintro (hg | ⟨t, ht, hgt⟩)
          · exact Or.inl hg
          · exact Or.inr ⟨t, Or.inr ht, hgt⟩
        · rintro (hg | ⟨t, (rfl | ht), hgt, hne⟩)
          · exact Or.inl hg
          · exact absurd hl hne
          · exact Or.inr ⟨t, ht, hgt, hne⟩
      · rw [if_pos (by simpa using hl)]
        simp only [mem_setAdd]
        constructor
        · rintro (⟨hg | rfl⟩ | ⟨t, ht, hgt⟩)
          · exact Or.inl hg
          · exact Or.inr ⟨s, Or.inl rfl, rfl, hl⟩
          · exact Or.inr ⟨t, Or.inr ht, hgt⟩
        · rintro (hg | ⟨t, (rfl | ht), hgt, hne⟩)
          · exact Or.inl (Or.inl hg)
          · exact Or.inl (Or.inr hgt.symm)
          · exact Or.inr ⟨t, ht, hgt, hne⟩

theorem foldl_meta_rated (resolve : ℕ → Option SongDoc) (songs : List Entry)
    (acc : MetaAcc) :
    (songs.foldl (metaStep resolve) acc).ratedSongs
      = acc.ratedSongs
        + ((songs.filterMap (fun item => resolve item.song)).filter
            (fun s => decide (0 < s.ratingsAverage))).length := by
  induction songs generalizing acc with
  | nil => simp
  | cons e es ih =>
    cases hres : resolve e.song with
    | none => simp [List.foldl_cons, metaStep, hres, ih]
    | some s =>
      rw [List.foldl_cons, ih, @List.filterMap_cons_some _ _ (fun item => resolve item.song) e es s hres]
      by_cases hr : 0 < s.ratingsAverage
      · rw [List.filter_cons_of_pos (by simpa using hr)]
        simp only [metaStep, hres, if_pos hr, List.length_cons]
        omega
      · rw [List.filter_cons_of_neg (by simpa using hr)]
        simp only [metaStep, hres, if_neg hr]

theorem foldl_meta_totalRating (resolve : ℕ → Option SongDoc) (songs : List Entry)
    (acc : MetaAcc) :
    (songs.foldl (metaStep resolve) acc).totalRating
      = acc.totalRating
        + (((songs.filterMap (fun item => resolve item.song)).filter
            (fun s => decide (0 < s.ratingsAverage))).map SongDoc.ratingsAverage).sum := by
  induction songs generalizing acc with
  | nil => simp
  | cons e es ih =>
    cases hres : resolve e.song with
    | none => simp [List.foldl_cons, metaStep, hres, ih]
    | some s =>
      rw [List.foldl_cons, ih, @List.filterMap_cons_some _ _ (fun item => resolve item.song) e es s hres]
      by_cases hr : 0 < s.ratingsAverage
      · rw [List.filter_cons_of_pos (by simpa using hr)]
        simp only [metaStep, hres, if_pos hr, List.map_cons, List.sum_cons]
        ring
      · rw [List.filter_cons_of_neg (by simpa using hr)]
        simp only [metaStep, hres, if_neg hr]

/-- C4 (amended): for every playlist and every resolution of its
membership entries to songs, `updateMetadata` sets `totalDuration` to the
sum of durations, `genres` and `languages` to the set unions (of the
non-empty language values), and `averageRating` to the mean of
`ratings.average` over resolved songs with `ratings.average > 0` (0 when
none); only entries whose song is missing are excluded — resolved songs
are included regardless of status (inactive songs are not excluded), and
the entries themselves are never removed (the operation reads the
membership and writes only `metadata`). -/
theorem updateMetadata_characterization (songs : List Entry)
    (resolve : ℕ → Option SongDoc) :
    (updateMetadata songs resolve).totalDuration
      = ((songs.filterMap (fun item => resolve item.song)).map SongDoc.duration).sum ∧
    (∀ g, g ∈ (updateMetadata songs resolve).genres
      ↔ ∃ s ∈ songs.filterMap (fun item => resolve item.song), g ∈ s.genre) ∧
    (∀ lang, lang ∈ (updateMetadata songs resolve).languages
      ↔ ∃ s ∈ songs.filterMap (fun item => resolve item.song),
          s.language = lang ∧ s.language ≠ "") ∧
    (updateMetadata songs resolve).averageRating
      = (if 0 < ((songs.filterMap (fun item => resolve item.song)).filter
            (fun s => decide (0 < s.ratingsAverage))).length
         then (((songs.filterMap (fun item => resolve item.song)).filter
              (fun s => decide (0 < s.ratingsAverage))).map SongDoc.ratingsAverage).sum
            / ((((songs.filterMap (fun item => resolve item.song)).filter
              (fun s => decide (0 < s.ratingsAverage))).length : ℕ) : ℚ)
         else 0) := by
  refine ⟨?_, ?_, ?_, ?_⟩
  · show (songs.foldl (metaStep resolve) ⟨0, [], [], 0, 0⟩).totalDuration = _
    rw [foldl_meta_duration]
    simp
  · intro g
    show g ∈ (songs.foldl (metaStep resolve) ⟨0, [], [], 0, 0⟩).genres ↔ _
    rw [foldl_meta_genres]
    simp
  · intro lang
    show lang ∈ (songs.foldl (metaStep resolve) ⟨0, [], [], 0, 0⟩).languages ↔ _
    rw [foldl_meta_languages]
    simp
  · show (if 0 < (songs.foldl (metaStep resolve) ⟨0, [], [], 0, 0⟩).ratedSongs
        then (songs.foldl (metaStep resolve) ⟨0, [], [], 0, 0⟩).totalRating
          / ((songs.foldl (metaStep resolve) ⟨0, [], [], 0, 0⟩).ratedSongs : ℚ)
        else 0) = _
    rw [foldl_meta_rated, foldl_meta_totalRating]
    simp

end MusicBackend
